import Mathlib

/-
Verification of the Multi-Party-Algorithm simulations.

Shallow embedding of src/ring_sim.py and src/two_pointer.py.  Both files
share an identical AsynchronousNetwork class and an identical scenario-driver
loop shape; the network and the driver step are therefore defined once,
parameterised by the party type and the topology-specific move classifier,
and instantiated twice, exactly as the two Python files instantiate them.
All randomness (random.randint, random.choice, random.sample) is threaded
explicitly as a tape of natural numbers, one entry consumed per call.
-/

namespace MPA

/-- A queued broadcast, the Python tuple (delivery_time, sender_id, new_index). -/
structure Msg where
  delivery : Nat
  sender : Nat
  idx : Nat
deriving DecidableEq, Repr

/-- AsynchronousNetwork state: d_delay, queue, current_time (both files, identical). -/
structure Network where
  d_delay : Nat
  queue : List Msg
  current_time : Nat
deriving DecidableEq, Repr

/-- send_broadcast: delivery_time = current_time + random.randint(0, d_delay);
the draw from the tape is reduced mod (d_delay + 1) to model the randint range. -/
def sendBroadcast (net : Network) (draw : Nat) (senderId newIndex : Nat) : Network :=
  let delay := draw % (net.d_delay + 1)
  { net with queue := net.queue ++ [⟨net.current_time + delay, senderId, newIndex⟩] }

/-- Delivery of one message: every party whose id differs from the sender gets
update_view(sender, idx); the sender itself is skipped (the loop in tick). -/
def deliverMsg {P : Type} (upd : P → Nat → Nat → P) (parties : Nat → P) (msg : Msg) :
    Nat → P :=
  fun pid => if pid = msg.sender then parties pid else upd (parties pid) msg.sender msg.idx

/-- Delivery of a list of messages in queue order (the for-loop over delivered). -/
def deliverAll {P : Type} (upd : P → Nat → Nat → P) (parties : Nat → P)
    (msgs : List Msg) : Nat → P :=
  msgs.foldl (deliverMsg upd) parties

/-- AsynchronousNetwork.tick: increment the clock, split the queue into the
messages due at the new clock and the rest, deliver the due ones in order,
and report whether anything was delivered. -/
def tickNet {P : Type} (upd : P → Nat → Nat → P) (net : Network) (parties : Nat → P) :
    Network × (Nat → P) × Bool :=
  let t := net.current_time + 1
  let delivered := net.queue.filter (fun m => m.delivery ≤ t)
  let remaining := net.queue.filter (fun m => ¬ m.delivery ≤ t)
  ({ net with current_time := t, queue := remaining },
   deliverAll upd parties delivered,
   !delivered.isEmpty)

/-- The new_index of the last message of a list whose sender is t, if any.
Captures the net effect on a view entry of delivering the list in order. -/
def lastFrom (t : Nat) : List Msg → Option Nat
  | [] => none
  | m :: ms =>
    match lastFrom t ms with
    | some v => some v
    | none => if m.sender = t then some m.idx else none

/-- Move classification: the strings used by get_move_status in both files. -/
inductive MoveStatus where
  | data : MoveStatus
  | drift : MoveStatus
deriving DecidableEq, Repr

/-- random.choice(l): pick an element of a nonempty list, tape-driven. -/
def chooseFrom (rand : Nat → Nat) (k : Nat) (l : List Nat) : Nat :=
  l.getD (rand k % l.length) 0

/-- random.sample(pool, cnt): cnt distinct picks without replacement,
tape-driven; returns the picks and the next unread tape position. -/
def sampleAux (rand : Nat → Nat) : Nat → Nat → List Nat → List Nat × Nat
  | 0, k, _ => ([], k)
  | _ + 1, k, [] => ([], k)
  | cnt + 1, k, p :: ps =>
    let pool := p :: ps
    let i := rand k % pool.length
    let chosen := pool.getD i 0
    let rest := sampleAux rand cnt (k + 1) (pool.eraseIdx i)
    (chosen :: rest.1, rest.2)

/-- Scenario-driver state shared by both topologies: the network, the party
map, the burned set and the number of tape entries consumed so far. -/
structure GState (P : Type) where
  net : Network
  parties : Nat → P
  burned : Finset Nat
  k : Nat

/-- One iteration of the run_scenario while-body (identical shape in both
files): tick the network, compute the eligible active parties, let one of
them move (burning on data), otherwise let an eligible silent party advance
without burning; returns the new state and moved_in_tick. -/
def genStep {P : Type} (upd : P → Nat → Nat → P)
    (gmsF : Finset Nat → (Nat → P) → Nat → Option (MoveStatus × Nat))
    (mv : P → Nat → P) (dt : P → Nat → P)
    (A S : List Nat) (rand : Nat → Nat) (s : GState P) : GState P × Bool :=
  let tk := tickNet upd s.net s.parties
  let net1 := tk.1
  let parties1 := tk.2.1
  let gms := gmsF s.burned parties1
  let legalA := A.filter (fun pid => (gms pid).isSome)
  if legalA.isEmpty then
    let legalS := S.filter (fun pid => (gms pid).isSome)
    if legalS.isEmpty then (⟨net1, parties1, s.burned, s.k⟩, false)
    else
      let jid := chooseFrom rand s.k legalS
      match gms jid with
      | none => (⟨net1, parties1, s.burned, s.k + 1⟩, false)
      | some (_, nxt) =>
        (⟨sendBroadcast net1 (rand (s.k + 1)) jid nxt,
          fun q => if q = jid then mv (parties1 jid) nxt else parties1 q,
          s.burned, s.k + 2⟩, true)
  else
    let sid := chooseFrom rand s.k legalA
    match gms sid with
    | none => (⟨net1, parties1, s.burned, s.k + 1⟩, false)
    | some (st, nxt) =>
      match st with
      | .drift =>
        (⟨sendBroadcast net1 (rand (s.k + 1)) sid nxt,
          fun q => if q = sid then mv (parties1 sid) nxt else parties1 q,
          s.burned, s.k + 2⟩, true)
      | .data =>
        (⟨sendBroadcast net1 (rand (s.k + 1)) sid nxt,
          fun q => if q = sid then dt (parties1 sid) nxt else parties1 q,
          insert nxt s.burned, s.k + 2⟩, true)

/-- Why a run of the driver loop ended. -/
inductive ExitReason where
  | maxUtil : ExitReason
  | clinch : ExitReason
  | capped : ExitReason
  | fuelOut : ExitReason
deriving DecidableEq, Repr

/-- all_ids = list(range(1, m + 1)). -/
def allIdsOf (m : Nat) : List Nat := (List.range m).map (fun i => i + 1)

/-! Ring topology (src/ring_sim.py) -/

/-- RingParty: own pointer, view of everyone (the init dict also holds an
entry for the party itself), pads_used counter. -/
structure RingParty where
  party_id : Nat
  n : Nat
  m : Nat
  d : Nat
  my_index : Nat
  view : Nat → Nat
  pads_used : Nat

/-- RingParty.update_view: unconditional overwrite of one view entry. -/
def RingParty.update_view (p : RingParty) (sender idx : Nat) : RingParty :=
  { p with view := fun j => if j = sender then idx else p.view j }

/-- RingParty.__init__: pointer (party_id - 1) * (n // m), view maps id j
to (j - 1) * (n // m) for j = 1..m, pads_used = 0. -/
def mkRingParty (party_id n m d : Nat) : RingParty :=
  { party_id := party_id, n := n, m := m, d := d,
    my_index := (party_id - 1) * (n / m),
    view := fun j => (j - 1) * (n / m),
    pads_used := 0 }

/-- The forward circular gap (neighbor_pos - my_index) % n, computed over
the integers exactly as Python computes it (nonnegative remainder). -/
def ringGapI (n neighborPos myIndex : Nat) : Int :=
  ((neighborPos : Int) - (myIndex : Int)) % (n : Int)

/-- get_move_status of ring_sim.run_scenario: neighbor is the cyclic
successor id, gap the forward circular distance to its last-known position;
gap > d allows a move, which is data when the next index is fresh and drift
when it is burned; gap ≤ d is blocked (None). -/
def ringGms (n m d : Nat) (burned : Finset Nat) (parties : Nat → RingParty)
    (pid : Nat) : Option (MoveStatus × Nat) :=
  let p := parties pid
  let front_id := (p.party_id % m) + 1
  let neighbor_pos := p.view front_id
  let gap := ringGapI n neighbor_pos p.my_index
  let next_idx := (p.my_index + 1) % n
  if gap > (d : Int) then
    if next_idx ∉ burned then some (.data, next_idx) else some (.drift, next_idx)
  else none

/-- The while-body of ring_sim.run_scenario as an instance of genStep. -/
def ringStep (n m d : Nat) (A S : List Nat) (rand : Nat → Nat)
    (s : GState RingParty) : GState RingParty × Bool :=
  genStep RingParty.update_view (ringGms n m d)
    (fun p nxt => { p with my_index := nxt })
    (fun p nxt => { p with my_index := nxt, pads_used := p.pads_used + 1 })
    A S rand s

/-- The while-loop of ring_sim.run_scenario: runs while len(burned) is
below n - m * d, breaking on a clinch; the Python loop has no iteration
cap, so the embedding carries fuel and reports fuelOut if it runs dry. -/
def ringLoop (n m d : Nat) (A S : List Nat) (rand : Nat → Nat) :
    Nat → GState RingParty → GState RingParty × ExitReason
  | 0, s => (s, .fuelOut)
  | fuel + 1, s =>
    if s.burned.card < n - m * d then
      let r := ringStep n m d A S rand s
      if r.2 = false ∧ r.1.net.queue = [] then (r.1, .clinch)
      else ringLoop n m d A S rand fuel r.1
    else (s, .maxUtil)

/-- ring_sim.run_scenario up to the final waste computation: sample the x
active ids, build the parties, seed burned with the active starting
positions, and run the loop. -/
def ringRun (n m d x : Nat) (rand : Nat → Nat) (fuel : Nat) :
    GState RingParty × ExitReason :=
  let all := allIdsOf m
  let sres := sampleAux rand x 0 all
  let A := sres.1
  let S := all.filter (fun i => decide (i ∉ A))
  let parties := fun i => mkRingParty i n m d
  let burned := (A.map (fun pid => (parties pid).my_index)).toFinset
  ringLoop n m d A S rand fuel ⟨⟨d, [], 0⟩, parties, burned, sres.2⟩

/-- The value ring_sim.run_scenario returns: n - len(burned). -/
def ringWaste (n m d x : Nat) (rand : Nat → Nat) (fuel : Nat) : Nat :=
  n - ((ringRun n m d x rand fuel).1.burned.card)

/-! TwoPointer topology (src/two_pointer.py) -/

/-- TwoPointerParty: direction fixed by id parity, pointer, view of the
other parties together with the insertion order of the view dict keys
(get_closest_opponent iterates the dict in that order), pads_used. -/
structure TPParty where
  party_id : Nat
  n : Nat
  m : Nat
  d : Nat
  direction : Int
  my_index : Nat
  view : Nat → Nat
  viewIds : List Nat
  pads_used : Nat

/-- TwoPointerParty.update_view: overwrite one entry; a genuinely new dict
key would be appended to the iteration order, as in Python. -/
def TPParty.update_view (p : TPParty) (sender idx : Nat) : TPParty :=
  { p with view := fun j => if j = sender then idx else p.view j,
           viewIds := if sender ∈ p.viewIds then p.viewIds else p.viewIds ++ [sender] }

/-- TwoPointerParty.__init__: odd ids get direction 1 and start at 0, even
ids get direction -1 and start at n - 1; the initial view places every
other odd id at 0 and every other even id at n - 1. -/
def mkTPParty (party_id n m d : Nat) : TPParty :=
  { party_id := party_id, n := n, m := m, d := d,
    direction := if party_id % 2 = 1 then 1 else -1,
    my_index := if party_id % 2 = 1 then 0 else n - 1,
    view := fun j => if j % 2 = 1 then 0 else n - 1,
    viewIds := (allIdsOf m).filter (fun i => decide (i ≠ party_id)),
    pads_used := 0 }

/-- Is id i of the parity opposite to the direction dir of a mover?  The
test get_closest_opponent applies to each view entry. -/
def oppParity (dir : Int) (i : Nat) : Prop :=
  (dir = 1 ∧ i % 2 = 0) ∨ (dir = -1 ∧ i % 2 = 1)

instance (dir : Int) (i : Nat) : Decidable (oppParity dir i) := by
  unfold oppParity; infer_instance

/-- Circular distance from myIndex to pos in the direction of travel,
(pos - my) % n going forward and (my - pos) % n going backward, over the
integers as Python computes it. -/
def travelDist (dir : Int) (n myIndex pos : Nat) : Int :=
  if dir = 1 then ((pos : Int) - (myIndex : Int)) % (n : Int)
  else ((myIndex : Int) - (pos : Int)) % (n : Int)

/-- One step of the fold inside get_closest_opponent: keep the position at
the strictly smallest distance seen so far among opposite-parity entries. -/
def oppStep (p : TPParty) (acc : Option (Nat × Int)) (i : Nat) : Option (Nat × Int) :=
  if oppParity p.direction i then
    let pos := p.view i
    let dist := travelDist p.direction p.n p.my_index pos
    match acc with
    | none => some (pos, dist)
    | some best => if dist < best.2 then some (pos, dist) else some best
  else acc

/-- TwoPointerParty.get_closest_opponent: fold the view dict in iteration
order, returning the position of minimum travel distance among parties of
the opposite direction, or none when there is none. -/
def TPParty.get_closest_opponent (p : TPParty) : Option Nat :=
  (p.viewIds.foldl (oppStep p) none).map Prod.fst

/-- get_move_status of two_pointer.run_scenario: next index is
(my_index + direction) % n, the neighbor is the closest opponent; no
opponent or gap ≤ d is blocked, otherwise data or drift on freshness. -/
def tpGms (n d : Nat) (burned : Finset Nat) (parties : Nat → TPParty)
    (pid : Nat) : Option (MoveStatus × Nat) :=
  let p := parties pid
  let next_idx := (((p.my_index : Int) + p.direction) % (n : Int)).toNat
  match p.get_closest_opponent with
  | none => none
  | some co =>
    let gap := travelDist p.direction n p.my_index co
    if gap ≤ (d : Int) then none
    else if next_idx ∉ burned then some (.data, next_idx)
    else some (.drift, next_idx)

/-- The while-body of two_pointer.run_scenario as an instance of genStep. -/
def tpStep (n d : Nat) (A S : List Nat) (rand : Nat → Nat)
    (s : GState TPParty) : GState TPParty × Bool :=
  genStep TPParty.update_view (tpGms n d)
    (fun p nxt => { p with my_index := nxt })
    (fun p nxt => { p with my_index := nxt, pads_used := p.pads_used + 1 })
    A S rand s

/-- The while-loop of two_pointer.run_scenario: runs while len(burned) is
below n - m * d and the iteration count is below n * 10 (the hard-coded
max_iterations of the file); breaks on a clinch. -/
def tpLoop (n m d : Nat) (A S : List Nat) (rand : Nat → Nat) :
    Nat → Nat → GState TPParty → GState TPParty × ExitReason
  | 0, _, s => (s, .fuelOut)
  | fuel + 1, iter, s =>
    if s.burned.card < n - m * d then
      if iter < n * 10 then
        let r := tpStep n d A S rand s
        if r.2 = false ∧ r.1.net.queue = [] then (r.1, .clinch)
        else tpLoop n m d A S rand fuel (iter + 1) r.1
      else (s, .capped)
    else (s, .maxUtil)

/-- two_pointer.run_scenario up to the final waste computation. -/
def tpRun (n m d x : Nat) (rand : Nat → Nat) (fuel : Nat) :
    GState TPParty × ExitReason :=
  let all := allIdsOf m
  let sres := sampleAux rand x 0 all
  let A := sres.1
  let S := all.filter (fun i => decide (i ∉ A))
  let parties := fun i => mkTPParty i n m d
  let burned := (A.map (fun pid => (parties pid).my_index)).toFinset
  tpLoop n m d A S rand fuel 0 ⟨⟨d, [], 0⟩, parties, burned, sres.2⟩

/-- The value two_pointer.run_scenario returns: n - len(burned). -/
def tpWaste (n m d x : Nat) (rand : Nat → Nat) (fuel : Nat) : Nat :=
  n - ((tpRun n m d x rand fuel).1.burned.card)

/-- A seeded deterministic random tape: stand-in for random.seed followed by
a stream of draws; any fixed function of the seed works for the claims. -/
def seedTape (seed : Nat) : Nat → Nat :=
  fun k => (seed + k + 1) * 2654435761 % 4294967296

/-- Iterate tick on a network and a ring party map. -/
def tickSteps (net : Network) (parties : Nat → RingParty) :
    Nat → Network × (Nat → RingParty)
  | 0 => (net, parties)
  | j + 1 =>
    let r := tickNet RingParty.update_view net parties
    tickSteps r.1 r.2.1 j

/-- The messages a tick of net will deliver: delivery_tick at most the
incremented clock. -/
def dueMsgs (net : Network) : List Msg :=
  net.queue.filter (fun m => m.delivery ≤ net.current_time + 1)

/-- The messages a tick of net will retain. -/
def keptMsgs (net : Network) : List Msg :=
  net.queue.filter (fun m => ¬ m.delivery ≤ net.current_time + 1)

/-- The ids of ids that get_move_status classifies as able to move. -/
def legalOf (gms : Nat → Option (MoveStatus × Nat)) (ids : List Nat) : List Nat :=
  ids.filter (fun pid => (gms pid).isSome)

/-- The network after a tick. -/
def tickedNet {P : Type} (upd : P → Nat → Nat → P) (s : GState P) : Network :=
  (tickNet upd s.net s.parties).1

/-- The party map after a tick. -/
def tickedParties {P : Type} (upd : P → Nat → Nat → P) (s : GState P) : Nat → P :=
  (tickNet upd s.net s.parties).2.1

/-- Two invocations of the ring run_scenario with the seed reset between
them, as in tests/test_determinism.py. -/
def ringRunTwice (n m d x seed fuel : Nat) :
    (GState RingParty × ExitReason) × (GState RingParty × ExitReason) :=
  (ringRun n m d x (seedTape seed) fuel, ringRun n m d x (seedTape seed) fuel)

/-- Two invocations of the two-pointer run_scenario with the seed reset
between them. -/
def tpRunTwice (n m d x seed fuel : Nat) :
    (GState TPParty × ExitReason) × (GState TPParty × ExitReason) :=
  (tpRun n m d x (seedTape seed) fuel, tpRun n m d x (seedTape seed) fuel)

/-! Helper lemmas -/

lemma chooseFrom_mem (rand : Nat → Nat) (k : Nat) {l : List Nat} (h : l ≠ []) :
    chooseFrom rand k l ∈ l := by
  unfold chooseFrom
  have hl : 0 < l.length := List.length_pos.2 h
  have hi : rand k % l.length < l.length := Nat.mod_lt _ hl
  rw [List.getD_eq_getElem _ _ hi]
  exact List.getElem_mem hi

lemma deliverAll_view {P : Type} (upd : P → Nat → Nat → P) (g : P → Nat → Nat)
    (hg : ∀ p s v t, g (upd p s v) t = if t = s then v else g p t) :
    ∀ (msgs : List Msg) (parties : Nat → P) (pid t : Nat),
      g (deliverAll upd parties msgs pid) t =
        if pid = t then g (parties pid) t
        else (lastFrom t msgs).getD (g (parties pid) t) := by
  intro msgs
  induction msgs with
  | nil => intro parties pid t; simp [deliverAll, lastFrom]
  | cons m ms ih =>
    intro parties pid t
    have hstep : deliverAll upd parties (m :: ms) pid =
        deliverAll upd (deliverMsg upd parties m) ms pid := rfl
    rw [hstep, ih]
    have hdm : g (deliverMsg upd parties m pid) t =
        if pid = m.sender then g (parties pid) t
        else if t = m.sender then m.idx else g (parties pid) t := by
      unfold deliverMsg
      by_cases hpm : pid = m.sender
      · simp [hpm]
      · simp [hpm, hg]
    by_cases hpt : pid = t
    · subst hpt
      simp only [if_pos rfl]
      rw [hdm]
      by_cases hpm : pid = m.sender
      · simp [hpm]
      · simp [hpm, fun h : pid = m.sender => hpm h]
    · simp only [if_neg hpt]
      show (lastFrom t ms).getD (g (deliverMsg upd parties m pid) t) =
        (lastFrom t (m :: ms)).getD (g (parties pid) t)
      cases hms : lastFrom t ms with
      | some v => simp [lastFrom, hms]
      | none =>
        simp only [lastFrom, hms, Option.getD_some, Option.getD_none]
        rw [hdm]
        by_cases hmt : m.sender = t
        · have hpm : pid ≠ m.sender := fun h => hpt (h.trans hmt)
          simp [hmt, hpm, hpt]
        · have htm : t ≠ m.sender := fun h => hmt h.symm
          by_cases hpm : pid = m.sender <;> simp [hmt, htm, hpm]

lemma deliverAll_pres {P : Type} (upd : P → Nat → Nat → P) {α : Type} (f : P → α)
    (hf : ∀ p s v, f (upd p s v) = f p) :
    ∀ (msgs : List Msg) (parties : Nat → P) (pid : Nat),
      f (deliverAll upd parties msgs pid) = f (parties pid) := by
  intro msgs
  induction msgs with
  | nil => intro parties pid; rfl
  | cons m ms ih =>
    intro parties pid
    have hstep : deliverAll upd parties (m :: ms) pid =
        deliverAll upd (deliverMsg upd parties m) ms pid := rfl
    rw [hstep, ih]
    unfold deliverMsg
    by_cases hpm : pid = m.sender
    · simp [hpm]
    · simp [hpm, hf]

lemma genStep_cases {P : Type} (upd : P → Nat → Nat → P)
    (gmsF : Finset Nat → (Nat → P) → Nat → Option (MoveStatus × Nat))
    (mv dt : P → Nat → P) (A S : List Nat) (rand : Nat → Nat) (s : GState P) :
    (legalOf (gmsF s.burned (tickedParties upd s)) A = [] ∧
     legalOf (gmsF s.burned (tickedParties upd s)) S = [] ∧
     genStep upd gmsF mv dt A S rand s =
       (⟨tickedNet upd s, tickedParties upd s, s.burned, s.k⟩, false)) ∨
    (legalOf (gmsF s.burned (tickedParties upd s)) A = [] ∧
     ∃ jid st nxt, jid ∈ S ∧
       gmsF s.burned (tickedParties upd s) jid = some (st, nxt) ∧
       genStep upd gmsF mv dt A S rand s =
         (⟨sendBroadcast (tickedNet upd s) (rand (s.k + 1)) jid nxt,
           fun q => if q = jid then mv (tickedParties upd s jid) nxt
                    else tickedParties upd s q,
           s.burned, s.k + 2⟩, true)) ∨
    (∃ sid nxt, sid ∈ A ∧
      ((gmsF s.burned (tickedParties upd s) sid = some (.drift, nxt) ∧
        genStep upd gmsF mv dt A S rand s =
          (⟨sendBroadcast (tickedNet upd s) (rand (s.k + 1)) sid nxt,
            fun q => if q = sid then mv (tickedParties upd s sid) nxt
                     else tickedParties upd s q,
            s.burned, s.k + 2⟩, true)) ∨
       (gmsF s.burned (tickedParties upd s) sid = some (.data, nxt) ∧
        genStep upd gmsF mv dt A S rand s =
          (⟨sendBroadcast (tickedNet upd s) (rand (s.k + 1)) sid nxt,
            fun q => if q = sid then dt (tickedParties upd s sid) nxt
                     else tickedParties upd s q,
            insert nxt s.burned, s.k + 2⟩, true)))) := by
  unfold genStep legalOf tickedNet tickedParties
  dsimp only
  split
  case isTrue hA =>
    split
    case isTrue hS =>
      exact Or.inl ⟨List.isEmpty_iff.mp hA, List.isEmpty_iff.mp hS, rfl⟩
    case isFalse hS =>
      have hne : S.filter
          (fun pid => ((gmsF s.burned (tickNet upd s.net s.parties).2.1) pid).isSome) ≠ [] := by
        intro hnil
        rw [hnil] at hS
        exact hS rfl
      have hmem := chooseFrom_mem rand s.k hne
      have hmemS := List.mem_filter.mp hmem
      split
      case h_1 heq =>
        exfalso
        have := hmemS.2
        rw [heq] at this
        simp at this
      case h_2 st nxt heq =>
        exact Or.inr (Or.inl ⟨List.isEmpty_iff.mp hA, _, st, nxt, hmemS.1, heq, rfl⟩)
  case isFalse hA =>
    have hne : A.filter
        (fun pid => ((gmsF s.burned (tickNet upd s.net s.parties).2.1) pid).isSome) ≠ [] := by
      intro hnil
      rw [hnil] at hA
      exact hA rfl
    have hmem := chooseFrom_mem rand s.k hne
    have hmemA := List.mem_filter.mp hmem
    split
    case h_1 heq =>
      exfalso
      have := hmemA.2
      rw [heq] at this
      simp at this
    case h_2 st nxt heq =>
      cases st with
      | drift => exact Or.inr (Or.inr ⟨_, nxt, hmemA.1, Or.inl ⟨heq, rfl⟩⟩)
      | data => exact Or.inr (Or.inr ⟨_, nxt, hmemA.1, Or.inr ⟨heq, rfl⟩⟩)

lemma tickNet_eq {P : Type} (upd : P → Nat → Nat → P) (net : Network)
    (parties : Nat → P) :
    tickNet upd net parties =
      ({ net with current_time := net.current_time + 1, queue := keptMsgs net },
       deliverAll upd parties (dueMsgs net), !(dueMsgs net).isEmpty) := rfl

lemma ringGms_some {n m d : Nat} {burned : Finset Nat} {parties : Nat → RingParty}
    {pid : Nat} {st : MoveStatus} {t : Nat}
    (h : ringGms n m d burned parties pid = some (st, t)) :
    ringGapI n ((parties pid).view ((parties pid).party_id % m + 1))
        (parties pid).my_index > (d : Int) ∧
      t = ((parties pid).my_index + 1) % n ∧ (st = .data ↔ t ∉ burned) := by
  unfold ringGms at h
  dsimp only at h
  split at h
  case isTrue hgap =>
    refine ⟨hgap, ?_⟩
    split at h
    case isTrue hfresh =>
      obtain ⟨h1, h2⟩ := Prod.mk.injEq .. ▸ Option.some.inj h
      exact ⟨h2.symm, by subst h1 h2; simpa using hfresh⟩
    case isFalse hfresh =>
      obtain ⟨h1, h2⟩ := Prod.mk.injEq .. ▸ Option.some.inj h
      refine ⟨h2.symm, ?_⟩
      subst h1 h2
      simp only [not_not] at hfresh
      constructor
      · intro hh; cases hh
      · intro hh; exact absurd hfresh hh
  case isFalse hgap => cases h

lemma ringGms_none_iff {n m d : Nat} {burned : Finset Nat} {parties : Nat → RingParty}
    {pid : Nat} :
    ringGms n m d burned parties pid = none ↔
      ringGapI n ((parties pid).view ((parties pid).party_id % m + 1))
        (parties pid).my_index ≤ (d : Int) := by
  unfold ringGms
  dsimp only
  split
  case isTrue hgap =>
    constructor
    · intro h; split at h <;> cases h
    · intro h; exact absurd hgap (not_lt.mpr h)
  case isFalse hgap =>
    simp [not_lt.mp hgap]

lemma tpGms_some {n d : Nat} {burned : Finset Nat} {parties : Nat → TPParty}
    {pid : Nat} {st : MoveStatus} {t : Nat}
    (h : tpGms n d burned parties pid = some (st, t)) :
    ∃ co, (parties pid).get_closest_opponent = some co ∧
      travelDist (parties pid).direction n (parties pid).my_index co > (d : Int) ∧
      t = ((((parties pid).my_index : Int) + (parties pid).direction) % (n : Int)).toNat ∧
      (st = .data ↔ t ∉ burned) := by
  unfold tpGms at h
  dsimp only at h
  split at h
  case h_1 => cases h
  case h_2 co hco =>
    split at h
    case isTrue hgap => cases h
    case isFalse hgap =>
      refine ⟨co, hco, not_le.mp hgap, ?_⟩
      split at h
      case isTrue hfresh =>
        obtain ⟨h1, h2⟩ := Prod.mk.injEq .. ▸ Option.some.inj h
        exact ⟨h2.symm, by subst h1 h2; simpa using hfresh⟩
      case isFalse hfresh =>
        obtain ⟨h1, h2⟩ := Prod.mk.injEq .. ▸ Option.some.inj h
        refine ⟨h2.symm, ?_⟩
        subst h1 h2
        simp only [not_not] at hfresh
        constructor
        · intro hh; cases hh
        · intro hh; exact absurd hfresh hh

lemma tpGms_none_iff {n d : Nat} {burned : Finset Nat} {parties : Nat → TPParty}
    {pid : Nat} :
    tpGms n d burned parties pid = none ↔
      (parties pid).get_closest_opponent = none ∨
      ∃ co, (parties pid).get_closest_opponent = some co ∧
        travelDist (parties pid).direction n (parties pid).my_index co ≤ (d : Int) := by
  unfold tpGms
  dsimp only
  split
  case h_1 hco =>
    simp [hco]
  case h_2 co hco =>
    split
    case isTrue hgap =>
      simp only [true_iff]
      exact Or.inr ⟨co, hco, hgap⟩
    case isFalse hgap =>
      constructor
      · intro h; split at h <;> cases h
      · intro h
        rcases h with h | ⟨co2, hco2, hle⟩
        · rw [h] at hco; cases hco
        · rw [hco2] at hco
          cases hco
          exact absurd hle hgap

lemma ringStep_cases (n m d : Nat) (A S : List Nat) (rand : Nat → Nat)
    (s : GState RingParty) :
    (legalOf (ringGms n m d s.burned (tickedParties RingParty.update_view s)) A = [] ∧
     legalOf (ringGms n m d s.burned (tickedParties RingParty.update_view s)) S = [] ∧
     ringStep n m d A S rand s =
       (⟨tickedNet RingParty.update_view s, tickedParties RingParty.update_view s,
         s.burned, s.k⟩, false)) ∨
    (legalOf (ringGms n m d s.burned (tickedParties RingParty.update_view s)) A = [] ∧
     ∃ jid st nxt, jid ∈ S ∧
       ringGms n m d s.burned (tickedParties RingParty.update_view s) jid = some (st, nxt) ∧
       ringStep n m d A S rand s =
         (⟨sendBroadcast (tickedNet RingParty.update_view s) (rand (s.k + 1)) jid nxt,
           fun q => if q = jid then
               { tickedParties RingParty.update_view s jid with my_index := nxt }
             else tickedParties RingParty.update_view s q,
           s.burned, s.k + 2⟩, true)) ∨
    (∃ sid nxt, sid ∈ A ∧
      ((ringGms n m d s.burned (tickedParties RingParty.update_view s) sid =
          some (.drift, nxt) ∧
        ringStep n m d A S rand s =
          (⟨sendBroadcast (tickedNet RingParty.update_view s) (rand (s.k + 1)) sid nxt,
            fun q => if q = sid then
                { tickedParties RingParty.update_view s sid with my_index := nxt }
              else tickedParties RingParty.update_view s q,
            s.burned, s.k + 2⟩, true)) ∨
       (ringGms n m d s.burned (tickedParties RingParty.update_view s) sid =
          some (.data, nxt) ∧
        ringStep n m d A S rand s =
          (⟨sendBroadcast (tickedNet RingParty.update_view s) (rand (s.k + 1)) sid nxt,
            fun q => if q = sid then
                { tickedParties RingParty.update_view s sid with
                    my_index := nxt,
                    pads_used := (tickedParties RingParty.update_view s sid).pads_used + 1 }
              else tickedParties RingParty.update_view s q,
            insert nxt s.burned, s.k + 2⟩, true)))) := by
  unfold ringStep
  exact genStep_cases RingParty.update_view (ringGms n m d)
    (fun p nxt => { p with my_index := nxt })
    (fun p nxt => { p with my_index := nxt, pads_used := p.pads_used + 1 })
    A S rand s

lemma tpStep_cases (n d : Nat) (A S : List Nat) (rand : Nat → Nat)
    (s : GState TPParty) :
    (legalOf (tpGms n d s.burned (tickedParties TPParty.update_view s)) A = [] ∧
     legalOf (tpGms n d s.burned (tickedParties TPParty.update_view s)) S = [] ∧
     tpStep n d A S rand s =
       (⟨tickedNet TPParty.update_view s, tickedParties TPParty.update_view s,
         s.burned, s.k⟩, false)) ∨
    (legalOf (tpGms n d s.burned (tickedParties TPParty.update_view s)) A = [] ∧
     ∃ jid st nxt, jid ∈ S ∧
       tpGms n d s.burned (tickedParties TPParty.update_view s) jid = some (st, nxt) ∧
       tpStep n d A S rand s =
         (⟨sendBroadcast (tickedNet TPParty.update_view s) (rand (s.k + 1)) jid nxt,
           fun q => if q = jid then
               { tickedParties TPParty.update_view s jid with my_index := nxt }
             else tickedParties TPParty.update_view s q,
           s.burned, s.k + 2⟩, true)) ∨
    (∃ sid nxt, sid ∈ A ∧
      ((tpGms n d s.burned (tickedParties TPParty.update_view s) sid =
          some (.drift, nxt) ∧
        tpStep n d A S rand s =
          (⟨sendBroadcast (tickedNet TPParty.update_view s) (rand (s.k + 1)) sid nxt,
            fun q => if q = sid then
                { tickedParties TPParty.update_view s sid with my_index := nxt }
              else tickedParties TPParty.update_view s q,
            s.burned, s.k + 2⟩, true)) ∨
       (tpGms n d s.burned (tickedParties TPParty.update_view s) sid =
          some (.data, nxt) ∧
        tpStep n d A S rand s =
          (⟨sendBroadcast (tickedNet TPParty.update_view s) (rand (s.k + 1)) sid nxt,
            fun q => if q = sid then
                { tickedParties TPParty.update_view s sid with
                    my_index := nxt,
                    pads_used := (tickedParties TPParty.update_view s sid).pads_used + 1 }
              else tickedParties TPParty.update_view s q,
            insert nxt s.burned, s.k + 2⟩, true)))) := by
  unfold tpStep
  exact genStep_cases TPParty.update_view (tpGms n d)
    (fun p nxt => { p with my_index := nxt })
    (fun p nxt => { p with my_index := nxt, pads_used := p.pads_used + 1 })
    A S rand s

lemma ringTick_pads (s : GState RingParty) (pid : Nat) :
    (tickedParties RingParty.update_view s pid).pads_used = (s.parties pid).pads_used := by
  unfold tickedParties
  rw [tickNet_eq]
  exact deliverAll_pres RingParty.update_view RingParty.pads_used
    (fun p sd v => rfl) (dueMsgs s.net) s.parties pid

lemma tpTick_pads (s : GState TPParty) (pid : Nat) :
    (tickedParties TPParty.update_view s pid).pads_used = (s.parties pid).pads_used := by
  unfold tickedParties
  rw [tickNet_eq]
  exact deliverAll_pres TPParty.update_view TPParty.pads_used
    (fun p sd v => rfl) (dueMsgs s.net) s.parties pid

lemma ringStep_burned (n m d : Nat) (A S : List Nat) (rand : Nat → Nat)
    (s : GState RingParty) :
    (ringStep n m d A S rand s).1.burned = s.burned ∨
    ∃ t, t ∉ s.burned ∧ (ringStep n m d A S rand s).1.burned = insert t s.burned := by
  rcases ringStep_cases n m d A S rand s with
    ⟨_, _, hr⟩ | ⟨_, jid, st, nxt, _, _, hr⟩ | ⟨sid, nxt, _, ⟨_, hr⟩ | ⟨hg, hr⟩⟩
  · left; rw [hr]
  · left; rw [hr]
  · left; rw [hr]
  · right
    refine ⟨nxt, ?_, by rw [hr]⟩
    exact (ringGms_some hg).2.2.mp rfl

lemma tpStep_burned (n d : Nat) (A S : List Nat) (rand : Nat → Nat)
    (s : GState TPParty) :
    (tpStep n d A S rand s).1.burned = s.burned ∨
    ∃ t, t ∉ s.burned ∧ (tpStep n d A S rand s).1.burned = insert t s.burned := by
  rcases tpStep_cases n d A S rand s with
    ⟨_, _, hr⟩ | ⟨_, jid, st, nxt, _, _, hr⟩ | ⟨sid, nxt, _, ⟨_, hr⟩ | ⟨hg, hr⟩⟩
  · left; rw [hr]
  · left; rw [hr]
  · left; rw [hr]
  · right
    refine ⟨nxt, ?_, by rw [hr]⟩
    obtain ⟨co, _, _, _, hiff⟩ := tpGms_some hg
    exact hiff.mp rfl

lemma ringStep_card (n m d : Nat) (A S : List Nat) (rand : Nat → Nat)
    (s : GState RingParty) :
    (ringStep n m d A S rand s).1.burned.card ≤ s.burned.card + 1 := by
  rcases ringStep_burned n m d A S rand s with h | ⟨t, _, h⟩
  · rw [h]; exact Nat.le_succ _
  · rw [h]; exact Finset.card_insert_le t s.burned

lemma tpStep_card (n d : Nat) (A S : List Nat) (rand : Nat → Nat)
    (s : GState TPParty) :
    (tpStep n d A S rand s).1.burned.card ≤ s.burned.card + 1 := by
  rcases tpStep_burned n d A S rand s with h | ⟨t, _, h⟩
  · rw [h]; exact Nat.le_succ _
  · rw [h]; exact Finset.card_insert_le t s.burned

lemma ringLoop_card (n m d : Nat) (A S : List Nat) (rand : Nat → Nat) :
    ∀ fuel (s : GState RingParty), s.burned.card ≤ n - m * d →
      ((ringLoop n m d A S rand fuel s).1).burned.card ≤ n - m * d := by
  intro fuel
  induction fuel with
  | zero => intro s h; exact h
  | succ f ih =>
    intro s h
    unfold ringLoop
    dsimp only
    split
    case isTrue hlt =>
      have hcard := ringStep_card n m d A S rand s
      split
      case isTrue hcl =>
        show (ringStep n m d A S rand s).1.burned.card ≤ n - m * d
        omega
      case isFalse hcl => exact ih _ (by omega)
    case isFalse hlt => exact h

lemma tpLoop_card (n m d : Nat) (A S : List Nat) (rand : Nat → Nat) :
    ∀ fuel iter (s : GState TPParty), s.burned.card ≤ n - m * d →
      ((tpLoop n m d A S rand fuel iter s).1).burned.card ≤ n - m * d := by
  intro fuel
  induction fuel with
  | zero => intro iter s h; exact h
  | succ f ih =>
    intro iter s h
    unfold tpLoop
    dsimp only
    split
    case isTrue hlt =>
      split
      case isTrue hit =>
        have hcard := tpStep_card n d A S rand s
        split
        case isTrue hcl =>
          show (tpStep n d A S rand s).1.burned.card ≤ n - m * d
          omega
        case isFalse hcl => exact ih _ _ (by omega)
      case isFalse hit => exact h
    case isFalse hlt => exact h

lemma sampleAux_length (rand : Nat → Nat) :
    ∀ (cnt k : Nat) (pool : List Nat), cnt ≤ pool.length →
      ((sampleAux rand cnt k pool).1).length = cnt := by
  intro cnt
  induction cnt with
  | zero => intro k pool _; rfl
  | succ c ih =>
    intro k pool h
    cases pool with
    | nil => simp at h
    | cons p ps =>
      unfold sampleAux
      dsimp only
      rw [List.length_cons]
      have hlt : rand k % (p :: ps).length < (p :: ps).length :=
        Nat.mod_lt _ (by simp)
      have hlen : ((p :: ps).eraseIdx (rand k % (p :: ps).length)).length + 1 =
          (p :: ps).length := by
        rw [List.length_eraseIdx]
        simp only [hlt, if_pos]
        have : 0 < (p :: ps).length := by simp
        omega
      rw [ih (k + 1) ((p :: ps).eraseIdx (rand k % (p :: ps).length)) (by omega)]

lemma tickSteps_nil (D : Nat) (parties : Nat → RingParty) :
    ∀ (j T : Nat), tickSteps ⟨D, [], T⟩ parties j = (⟨D, [], T + j⟩, parties) := by
  intro j
  induction j with
  | zero => intro T; rfl
  | succ jj ih =>
    intro T
    unfold tickSteps
    dsimp only
    rw [show tickNet RingParty.update_view ⟨D, [], T⟩ parties =
        (⟨D, [], T + 1⟩, parties, false) from rfl]
    rw [ih (T + 1), show T + 1 + jj = T + (jj + 1) from by omega]

lemma tickSteps_single (D pid v : Nat) (parties : Nat → RingParty) :
    ∀ (j T c : Nat),
      tickSteps ⟨D, [⟨T + c, pid, v⟩], T⟩ parties j =
        if j < max c 1 then (⟨D, [⟨T + c, pid, v⟩], T + j⟩, parties)
        else (⟨D, [], T + j⟩, deliverAll RingParty.update_view parties [⟨T + c, pid, v⟩]) := by
  intro j
  induction j with
  | zero =>
    intro T c
    have h0 : (0 : Nat) < max c 1 := lt_of_lt_of_le Nat.zero_lt_one (le_max_right c 1)
    simp [tickSteps, h0]
  | succ jj ih =>
    intro T c
    unfold tickSteps
    dsimp only
    by_cases hc : c ≤ 1
    · have hdel : tickNet RingParty.update_view ⟨D, [⟨T + c, pid, v⟩], T⟩ parties =
          (⟨D, [], T + 1⟩, deliverAll RingParty.update_view parties [⟨T + c, pid, v⟩],
           true) := by
        rw [tickNet_eq]
        simp [dueMsgs, keptMsgs, show T + c ≤ T + 1 from by omega]
      rw [hdel]
      dsimp only
      have hmax : max c 1 = 1 := max_eq_right hc
      rw [tickSteps_nil]
      rw [if_neg (by rw [hmax]; omega : ¬ jj + 1 < max c 1)]
      rw [show T + 1 + jj = T + (jj + 1) from by omega]
    · have hkeep : tickNet RingParty.update_view ⟨D, [⟨T + c, pid, v⟩], T⟩ parties =
          (⟨D, [⟨T + c, pid, v⟩], T + 1⟩, parties, false) := by
        rw [tickNet_eq]
        have hgt : ¬ (T + c ≤ T + 1) := by omega
        simp [dueMsgs, keptMsgs, deliverAll, hgt]
        omega
      rw [hkeep]
      dsimp only
      rw [show T + c = T + 1 + (c - 1) from by omega]
      rw [ih (T + 1) (c - 1)]
      have hm1 : max (c - 1) 1 = c - 1 := max_eq_left (by omega)
      have hm2 : max c 1 = c := max_eq_left (by omega)
      rw [hm1, hm2]
      by_cases hj : jj < c - 1
      · rw [if_pos hj, if_pos (show jj + 1 < c from by omega)]
        rw [show T + 1 + jj = T + (jj + 1) from by omega]
      · rw [if_neg hj, if_neg (show ¬ jj + 1 < c from by omega)]
        rw [show T + 1 + jj = T + (jj + 1) from by omega]

lemma oppFold_spec (p : TPParty) :
    ∀ (l : List Nat) (acc : Option (Nat × Int)),
      (∀ bp bd, acc = some (bp, bd) →
        bd = travelDist p.direction p.n p.my_index bp) →
      ((l.foldl (oppStep p) acc = none ↔
          acc = none ∧ ∀ i ∈ l, ¬ oppParity p.direction i) ∧
       (∀ bp bd, l.foldl (oppStep p) acc = some (bp, bd) →
          bd = travelDist p.direction p.n p.my_index bp ∧
          (acc = some (bp, bd) ∨
            ∃ i ∈ l, oppParity p.direction i ∧ bp = p.view i) ∧
          (∀ i ∈ l, oppParity p.direction i →
            bd ≤ travelDist p.direction p.n p.my_index (p.view i)) ∧
          (∀ bp0 bd0, acc = some (bp0, bd0) → bd ≤ bd0))) := by
  intro l
  induction l with
  | nil =>
    intro acc hacc
    constructor
    · simp
    · intro bp bd hr
      simp only [List.foldl_nil] at hr
      refine ⟨hacc bp bd hr, Or.inl hr, by simp, ?_⟩
      intro bp0 bd0 h0
      rw [h0] at hr
      cases hr
      exact le_refl _
  | cons i l2 ih =>
    intro acc hacc
    have hstep : (i :: l2).foldl (oppStep p) acc = l2.foldl (oppStep p) (oppStep p acc i) :=
      List.foldl_cons _ _
    by_cases hopp : oppParity p.direction i
    · -- head entry is an opponent: the post-head accumulator is some pair
      -- (bq, bdq) satisfying the three facts hq1 (it is a realized distance),
      -- hq2 (it is at most the distance of the head entry), hq3 (it is at most
      -- the incoming accumulator distance), hq4 (it is the head value or the
      -- incoming accumulator).
      obtain ⟨bq, bdq, hq, hq1, hq2, hq3, hq4⟩ :
          ∃ bq bdq, oppStep p acc i = some (bq, bdq) ∧
            bdq = travelDist p.direction p.n p.my_index bq ∧
            bdq ≤ travelDist p.direction p.n p.my_index (p.view i) ∧
            (∀ bp0 bd0, acc = some (bp0, bd0) → bdq ≤ bd0) ∧
            (bq = p.view i ∨ acc = some (bq, bdq)) := by
        unfold oppStep
        rw [if_pos hopp]
        cases acc with
        | none =>
          refine ⟨p.view i, _, rfl, rfl, le_refl _, ?_, Or.inl rfl⟩
          intro bp0 bd0 h0
          cases h0
        | some best =>
          obtain ⟨b0, d0⟩ := best
          dsimp only
          split
          · next hlt =>
              refine ⟨p.view i, _, rfl, rfl, le_refl _, ?_, Or.inl rfl⟩
              intro bp0 bd0 h0
              cases h0
              exact le_of_lt hlt
          · next hlt =>
              refine ⟨b0, d0, rfl, hacc b0 d0 rfl, le_of_not_lt hlt, ?_, Or.inr rfl⟩
              intro bp0 bd0 h0
              cases h0
              exact le_refl _
      have hacc2 : ∀ bp bd, oppStep p acc i = some (bp, bd) →
          bd = travelDist p.direction p.n p.my_index bp := by
        intro bp bd h
        rw [hq] at h
        cases h
        exact hq1
      obtain ⟨ihn, ihs⟩ := ih (oppStep p acc i) hacc2
      constructor
      · rw [hstep, ihn, hq]
        simp [hopp]
      · intro bp bd hr
        rw [hstep] at hr
        obtain ⟨hb1, hb2, hb3, hb4⟩ := ihs bp bd hr
        refine ⟨hb1, ?_, ?_, ?_⟩
        · rcases hb2 with h2 | ⟨j, hj, hoj, hbpj⟩
          · rw [hq] at h2
            cases h2
            rcases hq4 with h4 | h4
            · exact Or.inr ⟨i, List.mem_cons_self i l2, hopp, h4⟩
            · exact Or.inl h4
          · exact Or.inr ⟨j, List.mem_cons_of_mem i hj, hoj, hbpj⟩
        · intro j hj hoj
          rcases List.mem_cons.mp hj with hji | hjl
          · subst hji
            exact le_trans (hb4 bq bdq hq) hq2
          · exact hb3 j hjl hoj
        · intro bp0 bd0 h0
          exact le_trans (hb4 bq bdq hq) (hq3 bp0 bd0 h0)
    · -- head entry skipped: the accumulator is unchanged
      have hskip : oppStep p acc i = acc := by
        unfold oppStep
        rw [if_neg hopp]
      obtain ⟨ihn, ihs⟩ := ih acc hacc
      constructor
      · rw [hstep, hskip, ihn]
        simp [hopp]
      · intro bp bd hr
        rw [hstep, hskip] at hr
        obtain ⟨hb1, hb2, hb3, hb4⟩ := ihs bp bd hr
        refine ⟨hb1, ?_, ?_, hb4⟩
        · rcases hb2 with h2 | ⟨j, hj, hoj, hbpj⟩
          · exact Or.inl h2
          · exact Or.inr ⟨j, List.mem_cons_of_mem i hj, hoj, hbpj⟩
        · intro j hj hoj
          rcases List.mem_cons.mp hj with hji | hjl
          · subst hji; exact absurd hoj hopp
          · exact hb3 j hjl hoj

lemma gco_none_iff (p : TPParty) :
    p.get_closest_opponent = none ↔ ∀ i ∈ p.viewIds, ¬ oppParity p.direction i := by
  unfold TPParty.get_closest_opponent
  have h := (oppFold_spec p p.viewIds none (by intro bp bd hq; cases hq)).1
  rw [Option.map_eq_none']
  rw [h]
  simp

lemma gco_some (p : TPParty) (pos : Nat) (h : p.get_closest_opponent = some pos) :
    ∃ i ∈ p.viewIds, oppParity p.direction i ∧ pos = p.view i ∧
      ∀ j ∈ p.viewIds, oppParity p.direction j →
        travelDist p.direction p.n p.my_index pos ≤
          travelDist p.direction p.n p.my_index (p.view j) := by
  unfold TPParty.get_closest_opponent at h
  obtain ⟨⟨bp, bd⟩, hf, hmap⟩ := Option.map_eq_some'.mp h
  obtain ⟨hb1, hb2, hb3, _⟩ :=
    (oppFold_spec p p.viewIds none (by intro bq bdq hq; cases hq)).2 bp bd hf
  rcases hb2 with h2 | ⟨i, hi, hoi, hbpi⟩
  · cases h2
  · have hpos : bp = pos := hmap
    refine ⟨i, hi, hoi, by rw [← hpos]; exact hbpi, ?_⟩
    intro j hj hoj
    have := hb3 j hj hoj
    rw [← hpos, ← hb1]
    exact this

lemma ringStep_false (n m d : Nat) (A S : List Nat) (rand : Nat → Nat)
    (s : GState RingParty) (h : (ringStep n m d A S rand s).2 = false) :
    (ringStep n m d A S rand s).1 =
      ⟨tickedNet RingParty.update_view s, tickedParties RingParty.update_view s,
       s.burned, s.k⟩ ∧
    legalOf (ringGms n m d s.burned (tickedParties RingParty.update_view s)) A = [] ∧
    legalOf (ringGms n m d s.burned (tickedParties RingParty.update_view s)) S = [] := by
  rcases ringStep_cases n m d A S rand s with
    ⟨hA, hS, hr⟩ | ⟨_, _, _, _, _, _, hr⟩ | ⟨_, _, _, ⟨_, hr⟩ | ⟨_, hr⟩⟩
  · exact ⟨by rw [hr], hA, hS⟩
  · rw [hr] at h; simp at h
  · rw [hr] at h; simp at h
  · rw [hr] at h; simp at h

lemma tpStep_false (n d : Nat) (A S : List Nat) (rand : Nat → Nat)
    (s : GState TPParty) (h : (tpStep n d A S rand s).2 = false) :
    (tpStep n d A S rand s).1 =
      ⟨tickedNet TPParty.update_view s, tickedParties TPParty.update_view s,
       s.burned, s.k⟩ ∧
    legalOf (tpGms n d s.burned (tickedParties TPParty.update_view s)) A = [] ∧
    legalOf (tpGms n d s.burned (tickedParties TPParty.update_view s)) S = [] := by
  rcases tpStep_cases n d A S rand s with
    ⟨hA, hS, hr⟩ | ⟨_, _, _, _, _, _, hr⟩ | ⟨_, _, _, ⟨_, hr⟩ | ⟨_, hr⟩⟩
  · exact ⟨by rw [hr], hA, hS⟩
  · rw [hr] at h; simp at h
  · rw [hr] at h; simp at h
  · rw [hr] at h; simp at h

lemma ringLoop_not_capped (n m d : Nat) (A S : List Nat) (rand : Nat → Nat) :
    ∀ fuel (s : GState RingParty), (ringLoop n m d A S rand fuel s).2 ≠ .capped := by
  intro fuel
  induction fuel with
  | zero => intro s h; cases h
  | succ f ih =>
    intro s
    unfold ringLoop
    dsimp only
    split
    · split
      · intro h; cases h
      · exact ih _
    · intro h; cases h

lemma ringLoop_clinch (n m d : Nat) (A S : List Nat) (rand : Nat → Nat) :
    ∀ fuel (s : GState RingParty), (ringLoop n m d A S rand fuel s).2 = .clinch →
      (ringLoop n m d A S rand fuel s).1.net.queue = [] ∧
      legalOf (ringGms n m d (ringLoop n m d A S rand fuel s).1.burned
        (ringLoop n m d A S rand fuel s).1.parties) A = [] ∧
      legalOf (ringGms n m d (ringLoop n m d A S rand fuel s).1.burned
        (ringLoop n m d A S rand fuel s).1.parties) S = [] := by
  intro fuel
  induction fuel with
  | zero => intro s h; cases h
  | succ f ih =>
    intro s
    unfold ringLoop
    dsimp only
    split
    case isTrue hlt =>
      split
      case isTrue hcl =>
        intro _
        obtain ⟨hmv, hq⟩ := hcl
        obtain ⟨hst, hA, hS⟩ := ringStep_false n m d A S rand s hmv
        refine ⟨hq, ?_, ?_⟩
        · show legalOf (ringGms n m d (ringStep n m d A S rand s).1.burned
            (ringStep n m d A S rand s).1.parties) A = []
          rw [hst]
          exact hA
        · show legalOf (ringGms n m d (ringStep n m d A S rand s).1.burned
            (ringStep n m d A S rand s).1.parties) S = []
          rw [hst]
          exact hS
      case isFalse hcl => exact ih _
    case isFalse hlt => intro h; cases h

lemma ringLoop_maxUtil (n m d : Nat) (A S : List Nat) (rand : Nat → Nat) :
    ∀ fuel (s : GState RingParty), (ringLoop n m d A S rand fuel s).2 = .maxUtil →
      n - m * d ≤ (ringLoop n m d A S rand fuel s).1.burned.card := by
  intro fuel
  induction fuel with
  | zero => intro s h; cases h
  | succ f ih =>
    intro s
    unfold ringLoop
    dsimp only
    split
    case isTrue hlt =>
      split
      case isTrue hcl => intro h; cases h
      case isFalse hcl => exact ih _
    case isFalse hlt =>
      intro _
      exact Nat.le_of_not_lt hlt

lemma tpLoop_clinch (n m d : Nat) (A S : List Nat) (rand : Nat → Nat) :
    ∀ fuel iter (s : GState TPParty), (tpLoop n m d A S rand fuel iter s).2 = .clinch →
      (tpLoop n m d A S rand fuel iter s).1.net.queue = [] ∧
      legalOf (tpGms n d (tpLoop n m d A S rand fuel iter s).1.burned
        (tpLoop n m d A S rand fuel iter s).1.parties) A = [] ∧
      legalOf (tpGms n d (tpLoop n m d A S rand fuel iter s).1.burned
        (tpLoop n m d A S rand fuel iter s).1.parties) S = [] := by
  intro fuel
  induction fuel with
  | zero => intro iter s h; cases h
  | succ f ih =>
    intro iter s
    unfold tpLoop
    dsimp only
    split
    case isTrue hlt =>
      split
      case isTrue hit =>
        split
        case isTrue hcl =>
          intro _
          obtain ⟨hmv, hq⟩ := hcl
          obtain ⟨hst, hA, hS⟩ := tpStep_false n d A S rand s hmv
          refine ⟨hq, ?_, ?_⟩
          · show legalOf (tpGms n d (tpStep n d A S rand s).1.burned
              (tpStep n d A S rand s).1.parties) A = []
            rw [hst]
            exact hA
          · show legalOf (tpGms n d (tpStep n d A S rand s).1.burned
              (tpStep n d A S rand s).1.parties) S = []
            rw [hst]
            exact hS
        case isFalse hcl => exact ih _ _
      case isFalse hit => intro h; cases h
    case isFalse hlt => intro h; cases h

lemma tpLoop_maxUtil (n m d : Nat) (A S : List Nat) (rand : Nat → Nat) :
    ∀ fuel iter (s : GState TPParty), (tpLoop n m d A S rand fuel iter s).2 = .maxUtil →
      n - m * d ≤ (tpLoop n m d A S rand fuel iter s).1.burned.card := by
  intro fuel
  induction fuel with
  | zero => intro iter s h; cases h
  | succ f ih =>
    intro iter s
    unfold tpLoop
    dsimp only
    split
    case isTrue hlt =>
      split
      case isTrue hit =>
        split
        case isTrue hcl => intro h; cases h
        case isFalse hcl => exact ih _ _
      case isFalse hit => intro h; cases h
    case isFalse hlt =>
      intro _
      exact Nat.le_of_not_lt hlt

lemma tpLoop_not_fuelOut (n m d : Nat) (A S : List Nat) (rand : Nat → Nat) :
    ∀ fuel iter (s : GState TPParty), iter ≤ n * 10 → n * 10 < fuel + iter →
      (tpLoop n m d A S rand fuel iter s).2 ≠ .fuelOut := by
  intro fuel
  induction fuel with
  | zero =>
    intro iter s h1 h2
    exact absurd h1 (by omega)
  | succ f ih =>
    intro iter s h1 h2
    unfold tpLoop
    dsimp only
    split
    · split
      case isTrue hit =>
        split
        · intro hh; cases hh
        · exact ih _ _ (by omega) (by omega)
      case isFalse hit => intro hh; cases hh
    · intro hh; cases hh

lemma allIdsOf_length (m : Nat) : (allIdsOf m).length = m := by
  simp [allIdsOf]

lemma ringRun_card (n m d x : Nat) (rand : Nat → Nat) (fuel : Nat)
    (hx : x ≤ m) (hm : m ≤ n - m * d) :
    (ringRun n m d x rand fuel).1.burned.card ≤ n - m * d := by
  unfold ringRun
  dsimp only
  apply ringLoop_card
  refine le_trans (List.toFinset_card_le _) ?_
  rw [List.length_map]
  rw [sampleAux_length rand x 0 _ (by rw [allIdsOf_length]; exact hx)]
  omega

lemma tpRun_card (n m d x : Nat) (rand : Nat → Nat) (fuel : Nat)
    (hx : x ≤ m) (hm : m ≤ n - m * d) :
    (tpRun n m d x rand fuel).1.burned.card ≤ n - m * d := by
  unfold tpRun
  dsimp only
  apply tpLoop_card
  refine le_trans (List.toFinset_card_le _) ?_
  rw [List.length_map]
  rw [sampleAux_length rand x 0 _ (by rw [allIdsOf_length]; exact hx)]
  omega

/-! Claim theorems -/

/-- C1: no-reuse safety.  In both topologies a candidate next index that is
already burned is classified drift, never data (the classification is data
exactly when the candidate is fresh), and one driver step either leaves the
burned set unchanged or inserts a single index that was not yet burned; hence
no index is ever inserted into burned twice across a run. -/
theorem C1_no_reuse :
    (∀ n m d burned (parties : Nat → RingParty) pid st t,
       ringGms n m d burned parties pid = some (st, t) → (st = .data ↔ t ∉ burned)) ∧
    (∀ n d burned (parties : Nat → TPParty) pid st t,
       tpGms n d burned parties pid = some (st, t) → (st = .data ↔ t ∉ burned)) ∧
    (∀ n m d A S rand (s : GState RingParty),
       (ringStep n m d A S rand s).1.burned = s.burned ∨
       ∃ t, t ∉ s.burned ∧ (ringStep n m d A S rand s).1.burned = insert t s.burned) ∧
    (∀ n d A S rand (s : GState TPParty),
       (tpStep n d A S rand s).1.burned = s.burned ∨
       ∃ t, t ∉ s.burned ∧ (tpStep n d A S rand s).1.burned = insert t s.burned) := by
  refine ⟨?_, ?_, ?_, ?_⟩
  · intro n m d burned parties pid st t h
    exact (ringGms_some h).2.2
  · intro n d burned parties pid st t h
    obtain ⟨co, _, _, _, hiff⟩ := tpGms_some h
    exact hiff
  · intro n m d A S rand s
    exact ringStep_burned n m d A S rand s
  · intro n d A S rand s
    exact tpStep_burned n d A S rand s

/-- C1 witness: a concrete ring configuration in which the candidate index 1
is already burned and is classified drift, not data. -/
theorem C1_no_reuse_witness :
    ringGms 12 2 3 {1} (fun i => mkRingParty i 12 2 3) 1 = some (.drift, 1) ∧
    ((MoveStatus.drift = MoveStatus.data) ↔ (1 : Nat) ∉ ({1} : Finset Nat)) :=
  ⟨by decide,
   C1_no_reuse.1 12 2 3 {1} (fun i => mkRingParty i 12 2 3) 1 .drift 1 (by decide)⟩

/-- C3: gap strictness.  In the ring variant the classification is blocked
exactly when the forward circular gap to the last-known position of the
cyclic successor is at most d (so gap = d is blocked), and any allowed move has
gap strictly greater than d; in the two-pointer variant the classification
is blocked exactly when there is no opposite-direction opponent or the gap
to the closest opponent is at most d, and any allowed move has gap
strictly greater than d. -/
theorem C3_gap_strictness :
    (∀ n m d burned (parties : Nat → RingParty) pid,
      (ringGms n m d burned parties pid = none ↔
        ringGapI n ((parties pid).view ((parties pid).party_id % m + 1))
          (parties pid).my_index ≤ (d : Int)) ∧
      (∀ st t, ringGms n m d burned parties pid = some (st, t) →
        ringGapI n ((parties pid).view ((parties pid).party_id % m + 1))
          (parties pid).my_index > (d : Int)) ∧
      (ringGapI n ((parties pid).view ((parties pid).party_id % m + 1))
          (parties pid).my_index = (d : Int) →
        ringGms n m d burned parties pid = none)) ∧
    (∀ n d burned (parties : Nat → TPParty) pid,
      (tpGms n d burned parties pid = none ↔
        (parties pid).get_closest_opponent = none ∨
        ∃ co, (parties pid).get_closest_opponent = some co ∧
          travelDist (parties pid).direction n (parties pid).my_index co ≤ (d : Int)) ∧
      (∀ st t co, tpGms n d burned parties pid = some (st, t) →
        (parties pid).get_closest_opponent = some co →
        travelDist (parties pid).direction n (parties pid).my_index co > (d : Int)) ∧
      (∀ co, (parties pid).get_closest_opponent = some co →
        travelDist (parties pid).direction n (parties pid).my_index co = (d : Int) →
        tpGms n d burned parties pid = none)) := by
  constructor
  · intro n m d burned parties pid
    refine ⟨ringGms_none_iff, ?_, ?_⟩
    · intro st t h
      exact (ringGms_some h).1
    · intro heq
      exact ringGms_none_iff.mpr (le_of_eq heq)
  · intro n d burned parties pid
    refine ⟨tpGms_none_iff, ?_, ?_⟩
    · intro st t co h hco
      obtain ⟨co2, hco2, hgt, _, _⟩ := tpGms_some h
      rw [hco] at hco2
      cases hco2
      exact hgt
    · intro co hco heq
      exact tpGms_none_iff.mpr (Or.inr ⟨co, hco, le_of_eq heq⟩)

/-- C3 witness: a concrete ring party whose gap equals d exactly and is
classified blocked. -/
theorem C3_gap_strictness_witness :
    ringGapI 8 ((mkRingParty 1 8 2 4).view ((mkRingParty 1 8 2 4).party_id % 2 + 1))
      (mkRingParty 1 8 2 4).my_index = (4 : Int) ∧
    ringGms 8 2 4 ∅ (fun i => mkRingParty i 8 2 4) 1 = none :=
  ⟨by decide,
   (C3_gap_strictness.1 8 2 4 ∅ (fun i => mkRingParty i 8 2 4) 1).2.2 (by decide)⟩

/-- C9: two-pointer variant rules.  Odd ids get direction 1 and start at 0,
even ids get direction -1 and start at n - 1; the candidate next index of
any allowed move is (pointer + direction) mod n; the closest opponent is
none exactly when no opposite-parity party is in the view, otherwise it is
a view position of an opposite-parity party of minimum circular distance in
the direction of travel; with no opponent the party is blocked. -/
theorem C9_twopointer_rules :
    (∀ i n m d, i % 2 = 1 →
      (mkTPParty i n m d).direction = 1 ∧ (mkTPParty i n m d).my_index = 0) ∧
    (∀ i n m d, i % 2 = 0 →
      (mkTPParty i n m d).direction = -1 ∧ (mkTPParty i n m d).my_index = n - 1) ∧
    (∀ n d burned (parties : Nat → TPParty) pid st t,
       tpGms n d burned parties pid = some (st, t) →
       t = ((((parties pid).my_index : Int) + (parties pid).direction) % (n : Int)).toNat) ∧
    (∀ (p : TPParty),
       p.get_closest_opponent = none ↔ ∀ i ∈ p.viewIds, ¬ oppParity p.direction i) ∧
    (∀ (p : TPParty) pos, p.get_closest_opponent = some pos →
       ∃ i ∈ p.viewIds, oppParity p.direction i ∧ pos = p.view i ∧
         ∀ j ∈ p.viewIds, oppParity p.direction j →
           travelDist p.direction p.n p.my_index pos ≤
             travelDist p.direction p.n p.my_index (p.view j)) ∧
    (∀ n d burned (parties : Nat → TPParty) pid,
       (parties pid).get_closest_opponent = none →
       tpGms n d burned parties pid = none) := by
  refine ⟨?_, ?_, ?_, ?_, ?_, ?_⟩
  · intro i n m d h
    constructor <;> simp [mkTPParty, h]
  · intro i n m d h
    have h2 : ¬ i % 2 = 1 := by omega
    constructor <;> simp [mkTPParty, h2]
  · intro n d burned parties pid st t h
    exact (tpGms_some h).choose_spec.2.2.1
  · intro p
    exact gco_none_iff p
  · intro p pos h
    exact gco_some p pos h
  · intro n d burned parties pid h
    unfold tpGms
    dsimp only
    rw [h]

/-- C9 witness: in a two-party two-pointer setup, party 1 is odd with
direction 1 starting at 0. -/
theorem C9_twopointer_rules_witness :
    (1 % 2 = 1) ∧ (mkTPParty 1 12 2 3).direction = 1 ∧ (mkTPParty 1 12 2 3).my_index = 0 :=
  ⟨by decide, C9_twopointer_rules.1 1 12 2 3 (by decide)⟩

/-- C2: waste bounds.  For any configuration with x at most m and n at least
m * (d + 1), for every random tape and any fuel, the waste returned by
either variant of run_scenario lies between m * d and n. -/
theorem C2_waste_bounds (n m d x : Nat) (rand : Nat → Nat) (fuel : Nat)
    (hx : x ≤ m) (hn : m * (d + 1) ≤ n) :
    (m * d ≤ ringWaste n m d x rand fuel ∧ ringWaste n m d x rand fuel ≤ n) ∧
    (m * d ≤ tpWaste n m d x rand fuel ∧ tpWaste n m d x rand fuel ≤ n) := by
  have hn2 : m * d + m ≤ n := by rw [Nat.mul_succ] at hn; omega
  have hm : m ≤ n - m * d := by omega
  have h1 := ringRun_card n m d x rand fuel hx hm
  have h2 := tpRun_card n m d x rand fuel hx hm
  unfold ringWaste tpWaste
  exact ⟨⟨by omega, Nat.sub_le _ _⟩, ⟨by omega, Nat.sub_le _ _⟩⟩

/-- C2 witness: the bounds hold for the concrete configuration
n = 8, m = 2, d = 1, x = 2 under the all-zero tape. -/
theorem C2_waste_bounds_witness :
    (2 ≤ 2 ∧ 2 * (1 + 1) ≤ 8) ∧
    ((2 * 1 ≤ ringWaste 8 2 1 2 (fun _ => 0) 30 ∧ ringWaste 8 2 1 2 (fun _ => 0) 30 ≤ 8) ∧
     (2 * 1 ≤ tpWaste 8 2 1 2 (fun _ => 0) 30 ∧ tpWaste 8 2 1 2 (fun _ => 0) 30 ≤ 8)) :=
  ⟨⟨by decide, by decide⟩, C2_waste_bounds 8 2 1 2 (fun _ => 0) 30 (by decide) (by decide)⟩

/-- C4 counterexample: the ring run with n = 4, m = 2, d = 1, x = 2 under the
all-zero tape terminates because the burned count reached n - m * d (the
maxUtil exit), not by a clinch - party 1 is still classified able to perform
a data move at the final state - and not by any iteration cap (the ring loop
has none), refuting the claim that the loop ends only on a clinch or on a
cap reported as a distinct outcome. -/
theorem C4_counterexample :
    (ringRun 4 2 1 2 (fun _ => 0) 5).2 = .maxUtil ∧
    (ringRun 4 2 1 2 (fun _ => 0) 5).2 ≠ .clinch ∧
    (ringRun 4 2 1 2 (fun _ => 0) 5).2 ≠ .capped ∧
    ringGms 4 2 1 (ringRun 4 2 1 2 (fun _ => 0) 5).1.burned
      (ringRun 4 2 1 2 (fun _ => 0) 5).1.parties 1 = some (.data, 1) := by
  refine ⟨by decide, by decide, by decide, by decide⟩

/-- C4 amended: the driver loop exits in exactly these ways - reaching the
burned-count target n - m * d (maxUtil), a clinch (at which point the queue
is empty and no active or silent party is classified able to move), or, in
the two-pointer variant only, the hard-coded n * 10 iteration cap; the ring
variant has no cap, the two-pointer run with enough fuel never runs out of
fuel before its cap, and neither variant reports the exit reason to the
caller - the returned value is only the waste count. -/
theorem C4_termination_amended :
    (∀ n m d A S rand fuel (s : GState RingParty),
       (ringLoop n m d A S rand fuel s).2 ≠ .capped) ∧
    (∀ n m d A S rand fuel (s : GState RingParty),
       (ringLoop n m d A S rand fuel s).2 = .maxUtil →
       n - m * d ≤ (ringLoop n m d A S rand fuel s).1.burned.card) ∧
    (∀ n m d A S rand fuel (s : GState RingParty),
       (ringLoop n m d A S rand fuel s).2 = .clinch →
       (ringLoop n m d A S rand fuel s).1.net.queue = [] ∧
       legalOf (ringGms n m d (ringLoop n m d A S rand fuel s).1.burned
         (ringLoop n m d A S rand fuel s).1.parties) A = [] ∧
       legalOf (ringGms n m d (ringLoop n m d A S rand fuel s).1.burned
         (ringLoop n m d A S rand fuel s).1.parties) S = []) ∧
    (∀ n m d x rand, (tpRun n m d x rand (n * 10 + 1)).2 ≠ .fuelOut) ∧
    (∀ n m d A S rand fuel iter (s : GState TPParty),
       (tpLoop n m d A S rand fuel iter s).2 = .maxUtil →
       n - m * d ≤ (tpLoop n m d A S rand fuel iter s).1.burned.card) ∧
    (∀ n m d A S rand fuel iter (s : GState TPParty),
       (tpLoop n m d A S rand fuel iter s).2 = .clinch →
       (tpLoop n m d A S rand fuel iter s).1.net.queue = [] ∧
       legalOf (tpGms n d (tpLoop n m d A S rand fuel iter s).1.burned
         (tpLoop n m d A S rand fuel iter s).1.parties) A = [] ∧
       legalOf (tpGms n d (tpLoop n m d A S rand fuel iter s).1.burned
         (tpLoop n m d A S rand fuel iter s).1.parties) S = []) ∧
    (∀ n m d x rand fuel,
       ringWaste n m d x rand fuel = n - (ringRun n m d x rand fuel).1.burned.card ∧
       tpWaste n m d x rand fuel = n - (tpRun n m d x rand fuel).1.burned.card) := by
  refine ⟨?_, ?_, ?_, ?_, ?_, ?_, ?_⟩
  · intro n m d A S rand fuel s
    exact ringLoop_not_capped n m d A S rand fuel s
  · intro n m d A S rand fuel s
    exact ringLoop_maxUtil n m d A S rand fuel s
  · intro n m d A S rand fuel s
    exact ringLoop_clinch n m d A S rand fuel s
  · intro n m d x rand
    unfold tpRun
    dsimp only
    exact tpLoop_not_fuelOut n m d _ _ rand (n * 10 + 1) 0 _ (by omega) (by omega)
  · intro n m d A S rand fuel iter s
    exact tpLoop_maxUtil n m d A S rand fuel iter s
  · intro n m d A S rand fuel iter s
    exact tpLoop_clinch n m d A S rand fuel iter s
  · intro n m d x rand fuel
    exact ⟨rfl, rfl⟩

/-- C4 witness: the maxUtil clause applied to the same concrete ring run as
the counterexample. -/
theorem C4_termination_amended_witness :
    (ringRun 4 2 1 2 (fun _ => 0) 5).2 = .maxUtil ∧
    4 - 2 * 1 ≤ (ringRun 4 2 1 2 (fun _ => 0) 5).1.burned.card :=
  ⟨by decide,
   C4_termination_amended.2.1 4 2 1
     (sampleAux (fun _ => 0) 2 0 (allIdsOf 2)).1
     ((allIdsOf 2).filter (fun i => decide (i ∉ (sampleAux (fun _ => 0) 2 0 (allIdsOf 2)).1)))
     (fun _ => 0) 5
     ⟨⟨1, [], 0⟩, fun i => mkRingParty i 4 2 1,
      ((sampleAux (fun _ => 0) 2 0 (allIdsOf 2)).1.map
        (fun pid => (mkRingParty pid 4 2 1).my_index)).toFinset,
      (sampleAux (fun _ => 0) 2 0 (allIdsOf 2)).2⟩
     (by decide)⟩

/-- C7: determinism.  Two invocations of either run_scenario with the seed
reset between them (both reading the same seeded tape from position 0)
return the same waste and the same per-party usage counts; more generally
the outcome of a run depends only on the pointwise values of the random
tape and the configuration. -/
theorem C7_determinism :
    (∀ n m d x seed fuel,
      n - (ringRunTwice n m d x seed fuel).1.1.burned.card =
        n - (ringRunTwice n m d x seed fuel).2.1.burned.card ∧
      (∀ pid, ((ringRunTwice n m d x seed fuel).1.1.parties pid).pads_used =
        ((ringRunTwice n m d x seed fuel).2.1.parties pid).pads_used) ∧
      n - (tpRunTwice n m d x seed fuel).1.1.burned.card =
        n - (tpRunTwice n m d x seed fuel).2.1.burned.card ∧
      (∀ pid, ((tpRunTwice n m d x seed fuel).1.1.parties pid).pads_used =
        ((tpRunTwice n m d x seed fuel).2.1.parties pid).pads_used)) ∧
    (∀ n m d x fuel (r1 r2 : Nat → Nat), (∀ k, r1 k = r2 k) →
      ringRun n m d x r1 fuel = ringRun n m d x r2 fuel ∧
      tpRun n m d x r1 fuel = tpRun n m d x r2 fuel) := by
  constructor
  · intro n m d x seed fuel
    exact ⟨rfl, fun pid => rfl, rfl, fun pid => rfl⟩
  · intro n m d x fuel r1 r2 h
    have heq : r1 = r2 := funext h
    subst heq
    exact ⟨rfl, rfl⟩

/-- C7 witness: tape extensionality applied at a concrete configuration. -/
theorem C7_determinism_witness :
    ringRun 6 1 1 1 (fun _ => 0) 3 = ringRun 6 1 1 1 (fun _ => 0) 3 ∧
    tpRun 6 1 1 1 (fun _ => 0) 3 = tpRun 6 1 1 1 (fun _ => 0) 3 :=
  C7_determinism.2 6 1 1 1 3 (fun _ => 0) (fun _ => 0) (fun _ => rfl)

/-- C5: network tick semantics, for the tick shared by both files (stated
for each party type).  One tick increments the clock by exactly one,
retains exactly the queued messages whose delivery tick exceeds the new
clock, returns true exactly when some queued message is due, and rewrites
the view entry of each party for a sender to the last due message of that
sender, except that the view entry of a party for itself is never touched. -/
theorem C5_tick_semantics :
    (∀ (net : Network) (parties : Nat → RingParty),
      (tickNet RingParty.update_view net parties).1.current_time = net.current_time + 1 ∧
      (tickNet RingParty.update_view net parties).1.queue = keptMsgs net ∧
      (tickNet RingParty.update_view net parties).1.d_delay = net.d_delay ∧
      ((tickNet RingParty.update_view net parties).2.2 = true ↔
        ∃ msg ∈ net.queue, msg.delivery ≤ net.current_time + 1) ∧
      (∀ pid t, ((tickNet RingParty.update_view net parties).2.1 pid).view t =
        if pid = t then (parties pid).view t
        else (lastFrom t (dueMsgs net)).getD ((parties pid).view t))) ∧
    (∀ (net : Network) (parties : Nat → TPParty),
      (tickNet TPParty.update_view net parties).1.current_time = net.current_time + 1 ∧
      (tickNet TPParty.update_view net parties).1.queue = keptMsgs net ∧
      (tickNet TPParty.update_view net parties).1.d_delay = net.d_delay ∧
      ((tickNet TPParty.update_view net parties).2.2 = true ↔
        ∃ msg ∈ net.queue, msg.delivery ≤ net.current_time + 1) ∧
      (∀ pid t, ((tickNet TPParty.update_view net parties).2.1 pid).view t =
        if pid = t then (parties pid).view t
        else (lastFrom t (dueMsgs net)).getD ((parties pid).view t))) := by
  constructor
  · intro net parties
    refine ⟨rfl, rfl, rfl, ?_, ?_⟩
    · show (!(dueMsgs net).isEmpty) = true ↔ _
      simp [dueMsgs, List.filter_eq_nil_iff, List.isEmpty_iff]
    · intro pid t
      exact deliverAll_view RingParty.update_view (fun p => p.view)
        (fun p sd v tt => rfl) (dueMsgs net) parties pid t
  · intro net parties
    refine ⟨rfl, rfl, rfl, ?_, ?_⟩
    · show (!(dueMsgs net).isEmpty) = true ↔ _
      simp [dueMsgs, List.filter_eq_nil_iff, List.isEmpty_iff]
    · intro pid t
      exact deliverAll_view TPParty.update_view (fun p => p.view)
        (fun p sd v tt => rfl) (dueMsgs net) parties pid t

/-- C6 counterexample: with the delay for a broadcast sampled at 0 on a
network whose delay bound is D = 3, the view of the receiving party already
reflects the broadcast after one tick, strictly before tick T + D; this
refutes the universal part of the claim, which asserts no view reflects a
broadcast before tick T + D. -/
theorem C6_counterexample :
    ((tickSteps (sendBroadcast ⟨3, [], 0⟩ 0 1 50)
        (fun i => mkRingParty i 100 2 5) 1).2 2).view 1 = 50 ∧
    (0 + 1 : Nat) < 0 + 3 := by
  exact ⟨by decide, by decide⟩

/-- C6 amended: a broadcast scheduled at tick T whose sampled delay is
c = draw mod (D + 1) (so c is at most D) is reflected in the view of another
view exactly from the first tick at or after T + c on (never earlier, and
at least one tick must pass), hence it is always reflected once the clock
reaches T + max D 1; the own view a sender holds of itself is never updated
by its own broadcast; and
in the concrete scenario n = 100, m = 2, d = 5, delay bound 3 with the
delay forced to its maximum, the view party 2 holds of party 1 stays 0 for ticks
T..T+2 and becomes 50 at tick T + 3. -/
theorem C6_delivery_window :
    (∀ (D T v pid recv draw : Nat) (parties : Nat → RingParty), recv ≠ pid →
       draw % (D + 1) ≤ D ∧
       (∀ j, ((tickSteps (sendBroadcast ⟨D, [], T⟩ draw pid v) parties j).2 recv).view pid =
         if j < max (draw % (D + 1)) 1 then (parties recv).view pid else v) ∧
       (∀ j, max D 1 ≤ j →
         ((tickSteps (sendBroadcast ⟨D, [], T⟩ draw pid v) parties j).2 recv).view pid = v)) ∧
    (∀ (D T v pid draw : Nat) (parties : Nat → RingParty) j,
       ((tickSteps (sendBroadcast ⟨D, [], T⟩ draw pid v) parties j).2 pid).view pid =
         (parties pid).view pid) ∧
    (∀ j, j < 3 →
       ((tickSteps (sendBroadcast ⟨3, [], 0⟩ 3 1 50)
           (fun i => mkRingParty i 100 2 5) j).2 2).view 1 = 0) ∧
    ((tickSteps (sendBroadcast ⟨3, [], 0⟩ 3 1 50)
        (fun i => mkRingParty i 100 2 5) 3).2 2).view 1 = 50 := by
  have hnet : ∀ (D T v pid draw : Nat), sendBroadcast ⟨D, [], T⟩ draw pid v =
      ⟨D, [⟨T + draw % (D + 1), pid, v⟩], T⟩ := fun _ _ _ _ _ => rfl
  refine ⟨?_, ?_, ?_, ?_⟩
  · intro D T v pid recv draw parties hrecv
    have hc : draw % (D + 1) ≤ D := by
      have := Nat.mod_lt draw (show 0 < D + 1 from Nat.succ_pos D)
      omega
    refine ⟨hc, ?_, ?_⟩
    · intro j
      rw [hnet, tickSteps_single]
      split
      · rfl
      · show (deliverAll RingParty.update_view parties
          [⟨T + draw % (D + 1), pid, v⟩] recv).view pid = v
        simp [deliverAll, deliverMsg, RingParty.update_view, hrecv]
    · intro j hj
      rw [hnet, tickSteps_single]
      rw [if_neg (by
        have h1 : max (draw % (D + 1)) 1 ≤ max D 1 :=
          max_le_max hc (le_refl 1)
        omega)]
      show (deliverAll RingParty.update_view parties
        [⟨T + draw % (D + 1), pid, v⟩] recv).view pid = v
      simp [deliverAll, deliverMsg, RingParty.update_view, hrecv]
  · intro D T v pid draw parties j
    rw [hnet, tickSteps_single]
    split
    · rfl
    · show (deliverAll RingParty.update_view parties
        [⟨T + draw % (D + 1), pid, v⟩] pid).view pid = (parties pid).view pid
      simp [deliverAll, deliverMsg]
  · intro j hj
    interval_cases j
    · decide
    · decide
    · decide
  · decide

/-- C6 witness: the general clause applied to the concrete scenario, with
party 2 as the receiver of the broadcast of party 1. -/
theorem C6_delivery_window_witness :
    (2 : Nat) ≠ 1 ∧ 3 % (3 + 1) ≤ 3 :=
  ⟨by decide,
   (C6_delivery_window.1 3 0 50 1 2 3 (fun i => mkRingParty i 100 2 5) (by decide)).1⟩

/-- C8: silent parties never burn and yield only.  In each driver step of
either variant: when some active party is eligible the mover is an active
party and every other party is exactly as the tick left it (silent parties
are not considered); when no active party is eligible the step never
changes the burned set or any used count, and if it moves at all
it moves a silent party whose classification was computed, setting its
pointer to the classified candidate and broadcasting the new position. -/
theorem C8_silent_parties :
    (∀ n m d A S rand (s : GState RingParty),
      (legalOf (ringGms n m d s.burned (tickedParties RingParty.update_view s)) A ≠ [] →
        ∃ sid ∈ A, ∀ q, q ≠ sid →
          (ringStep n m d A S rand s).1.parties q =
            tickedParties RingParty.update_view s q) ∧
      (legalOf (ringGms n m d s.burned (tickedParties RingParty.update_view s)) A = [] →
        (ringStep n m d A S rand s).1.burned = s.burned ∧
        (∀ q, ((ringStep n m d A S rand s).1.parties q).pads_used =
          (s.parties q).pads_used) ∧
        ((ringStep n m d A S rand s).2 = true →
          ∃ jid ∈ S, ∃ st nxt,
            ringGms n m d s.burned (tickedParties RingParty.update_view s) jid =
              some (st, nxt) ∧
            ((ringStep n m d A S rand s).1.parties jid).my_index = nxt ∧
            (ringStep n m d A S rand s).1.net =
              sendBroadcast (tickedNet RingParty.update_view s) (rand (s.k + 1)) jid nxt))) ∧
    (∀ n d A S rand (s : GState TPParty),
      (legalOf (tpGms n d s.burned (tickedParties TPParty.update_view s)) A ≠ [] →
        ∃ sid ∈ A, ∀ q, q ≠ sid →
          (tpStep n d A S rand s).1.parties q =
            tickedParties TPParty.update_view s q) ∧
      (legalOf (tpGms n d s.burned (tickedParties TPParty.update_view s)) A = [] →
        (tpStep n d A S rand s).1.burned = s.burned ∧
        (∀ q, ((tpStep n d A S rand s).1.parties q).pads_used =
          (s.parties q).pads_used) ∧
        ((tpStep n d A S rand s).2 = true →
          ∃ jid ∈ S, ∃ st nxt,
            tpGms n d s.burned (tickedParties TPParty.update_view s) jid =
              some (st, nxt) ∧
            ((tpStep n d A S rand s).1.parties jid).my_index = nxt ∧
            (tpStep n d A S rand s).1.net =
              sendBroadcast (tickedNet TPParty.update_view s) (rand (s.k + 1)) jid nxt))) := by
  constructor
  · intro n m d A S rand s
    rcases ringStep_cases n m d A S rand s with
      ⟨hA, hS, hr⟩ | ⟨hA, jid, st, nxt, hjS, hg, hr⟩ | ⟨sid, nxt, hsA, hcase⟩
    · constructor
      · intro hne; exact absurd hA hne
      · intro _
        refine ⟨by rw [hr], ?_, ?_⟩
        · intro q
          rw [hr]
          exact ringTick_pads s q
        · intro hmv
          rw [hr] at hmv
          simp at hmv
    · constructor
      · intro hne; exact absurd hA hne
      · intro _
        refine ⟨by rw [hr], ?_, ?_⟩
        · intro q
          rw [hr]
          dsimp only
          by_cases hq : q = jid
          · subst hq
            rw [if_pos rfl]
            exact ringTick_pads s q
          · rw [if_neg hq]
            exact ringTick_pads s q
        · intro _
          refine ⟨jid, hjS, st, nxt, hg, ?_, by rw [hr]⟩
          rw [hr]
          dsimp only
          rw [if_pos rfl]
    · have hmem : sid ∈ legalOf (ringGms n m d s.burned
          (tickedParties RingParty.update_view s)) A := by
        unfold legalOf
        refine List.mem_filter.mpr ⟨hsA, ?_⟩
        rcases hcase with ⟨hg, _⟩ | ⟨hg, _⟩ <;> rw [hg] <;> rfl
      constructor
      · intro _
        refine ⟨sid, hsA, ?_⟩
        intro q hq
        rcases hcase with ⟨_, hr⟩ | ⟨_, hr⟩ <;>
          (rw [hr]; dsimp only; rw [if_neg hq])
      · intro hA
        exfalso
        rw [hA] at hmem
        cases hmem
  · intro n d A S rand s
    rcases tpStep_cases n d A S rand s with
      ⟨hA, hS, hr⟩ | ⟨hA, jid, st, nxt, hjS, hg, hr⟩ | ⟨sid, nxt, hsA, hcase⟩
    · constructor
      · intro hne; exact absurd hA hne
      · intro _
        refine ⟨by rw [hr], ?_, ?_⟩
        · intro q
          rw [hr]
          exact tpTick_pads s q
        · intro hmv
          rw [hr] at hmv
          simp at hmv
    · constructor
      · intro hne; exact absurd hA hne
      · intro _
        refine ⟨by rw [hr], ?_, ?_⟩
        · intro q
          rw [hr]
          dsimp only
          by_cases hq : q = jid
          · subst hq
            rw [if_pos rfl]
            exact tpTick_pads s q
          · rw [if_neg hq]
            exact tpTick_pads s q
        · intro _
          refine ⟨jid, hjS, st, nxt, hg, ?_, by rw [hr]⟩
          rw [hr]
          dsimp only
          rw [if_pos rfl]
    · have hmem : sid ∈ legalOf (tpGms n d s.burned
          (tickedParties TPParty.update_view s)) A := by
        unfold legalOf
        refine List.mem_filter.mpr ⟨hsA, ?_⟩
        rcases hcase with ⟨hg, _⟩ | ⟨hg, _⟩ <;> rw [hg] <;> rfl
      constructor
      · intro _
        refine ⟨sid, hsA, ?_⟩
        intro q hq
        rcases hcase with ⟨_, hr⟩ | ⟨_, hr⟩ <;>
          (rw [hr]; dsimp only; rw [if_neg hq])
      · intro hA
        exfalso
        rw [hA] at hmem
        cases hmem

/-- C8 witness: in a one-party ring state no active party is eligible, and
the clause applies: the step leaves the burned set unchanged. -/
theorem C8_silent_parties_witness :
    legalOf (ringGms 4 1 1
      ({0} : Finset Nat)
      (tickedParties RingParty.update_view
        ⟨⟨1, [], 0⟩, fun i => mkRingParty i 4 1 1, {0}, 1⟩)) [1] = [] ∧
    (ringStep 4 1 1 [1] [] (fun _ => 0)
      ⟨⟨1, [], 0⟩, fun i => mkRingParty i 4 1 1, {0}, 1⟩).1.burned = {0} :=
  ⟨by decide,
   ((C8_silent_parties.1 4 1 1 [1] [] (fun _ => 0)
     ⟨⟨1, [], 0⟩, fun i => mkRingParty i 4 1 1, {0}, 1⟩).2 (by decide)).1⟩

/-- C10: ledger frame condition.  Delivering messages never changes a used
count; each driver step of either variant either leaves the burned set and
every used count unchanged, or performs exactly one data move by an active
party: it inserts exactly the classified candidate index into burned,
increments exactly the used count of the mover by one, and leaves every other
used count unchanged; and the value either run_scenario returns is n minus
the size of the burned set at termination. -/
theorem C10_ledger_frame :
    (∀ (s : GState RingParty) q,
       (tickedParties RingParty.update_view s q).pads_used = (s.parties q).pads_used) ∧
    (∀ n m d A S rand (s : GState RingParty),
       ((ringStep n m d A S rand s).1.burned = s.burned ∧
        ∀ q, ((ringStep n m d A S rand s).1.parties q).pads_used =
          (s.parties q).pads_used) ∨
       (∃ sid nxt, sid ∈ A ∧
         ringGms n m d s.burned (tickedParties RingParty.update_view s) sid =
           some (.data, nxt) ∧
         (ringStep n m d A S rand s).1.burned = insert nxt s.burned ∧
         ((ringStep n m d A S rand s).1.parties sid).pads_used =
           (s.parties sid).pads_used + 1 ∧
         ∀ q, q ≠ sid → ((ringStep n m d A S rand s).1.parties q).pads_used =
           (s.parties q).pads_used)) ∧
    (∀ n m d x rand fuel,
       ringWaste n m d x rand fuel = n - (ringRun n m d x rand fuel).1.burned.card) ∧
    (∀ (s : GState TPParty) q,
       (tickedParties TPParty.update_view s q).pads_used = (s.parties q).pads_used) ∧
    (∀ n d A S rand (s : GState TPParty),
       ((tpStep n d A S rand s).1.burned = s.burned ∧
        ∀ q, ((tpStep n d A S rand s).1.parties q).pads_used =
          (s.parties q).pads_used) ∨
       (∃ sid nxt, sid ∈ A ∧
         tpGms n d s.burned (tickedParties TPParty.update_view s) sid =
           some (.data, nxt) ∧
         (tpStep n d A S rand s).1.burned = insert nxt s.burned ∧
         ((tpStep n d A S rand s).1.parties sid).pads_used =
           (s.parties sid).pads_used + 1 ∧
         ∀ q, q ≠ sid → ((tpStep n d A S rand s).1.parties q).pads_used =
           (s.parties q).pads_used)) ∧
    (∀ n m d x rand fuel,
       tpWaste n m d x rand fuel = n - (tpRun n m d x rand fuel).1.burned.card) := by
  refine ⟨?_, ?_, ?_, ?_, ?_, ?_⟩
  · intro s q
    exact ringTick_pads s q
  · intro n m d A S rand s
    rcases ringStep_cases n m d A S rand s with
      ⟨hA, hS, hr⟩ | ⟨hA, jid, st, nxt, hjS, hg, hr⟩ | ⟨sid, nxt, hsA, hcase⟩
    · left
      refine ⟨by rw [hr], ?_⟩
      intro q
      rw [hr]
      exact ringTick_pads s q
    · left
      refine ⟨by rw [hr], ?_⟩
      intro q
      rw [hr]
      dsimp only
      by_cases hq : q = jid
      · subst hq
        rw [if_pos rfl]
        exact ringTick_pads s q
      · rw [if_neg hq]
        exact ringTick_pads s q
    · rcases hcase with ⟨hg, hr⟩ | ⟨hg, hr⟩
      · left
        refine ⟨by rw [hr], ?_⟩
        intro q
        rw [hr]
        dsimp only
        by_cases hq : q = sid
        · subst hq
          rw [if_pos rfl]
          exact ringTick_pads s q
        · rw [if_neg hq]
          exact ringTick_pads s q
      · right
        refine ⟨sid, nxt, hsA, hg, by rw [hr], ?_, ?_⟩
        · rw [hr]
          dsimp only
          rw [if_pos rfl]
          show (tickedParties RingParty.update_view s sid).pads_used + 1 = _
          rw [ringTick_pads s sid]
        · intro q hq
          rw [hr]
          dsimp only
          rw [if_neg hq]
          exact ringTick_pads s q
  · intro n m d x rand fuel
    rfl
  · intro s q
    exact tpTick_pads s q
  · intro n d A S rand s
    rcases tpStep_cases n d A S rand s with
      ⟨hA, hS, hr⟩ | ⟨hA, jid, st, nxt, hjS, hg, hr⟩ | ⟨sid, nxt, hsA, hcase⟩
    · left
      refine ⟨by rw [hr], ?_⟩
      intro q
      rw [hr]
      exact tpTick_pads s q
    · left
      refine ⟨by rw [hr], ?_⟩
      intro q
      rw [hr]
      dsimp only
      by_cases hq : q = jid
      · subst hq
        rw [if_pos rfl]
        exact tpTick_pads s q
      · rw [if_neg hq]
        exact tpTick_pads s q
    · rcases hcase with ⟨hg, hr⟩ | ⟨hg, hr⟩
      · left
        refine ⟨by rw [hr], ?_⟩
        intro q
        rw [hr]
        dsimp only
        by_cases hq : q = sid
        · subst hq
          rw [if_pos rfl]
          exact tpTick_pads s q
        · rw [if_neg hq]
          exact tpTick_pads s q
      · right
        refine ⟨sid, nxt, hsA, hg, by rw [hr], ?_, ?_⟩
        · rw [hr]
          dsimp only
          rw [if_pos rfl]
          show (tickedParties TPParty.update_view s sid).pads_used + 1 = _
          rw [tpTick_pads s sid]
        · intro q hq
          rw [hr]
          dsimp only
          rw [if_neg hq]
          exact tpTick_pads s q
  · intro n m d x rand fuel
    rfl

/-- C10 witness: the tick clause applied to a concrete ring state. -/
theorem C10_ledger_frame_witness :
    (tickedParties RingParty.update_view
      ⟨⟨1, [⟨1, 1, 3⟩], 0⟩, fun i => mkRingParty i 4 2 1, {0, 2}, 2⟩ 2).pads_used =
    ((fun i => mkRingParty i 4 2 1) 2).pads_used :=
  C10_ledger_frame.1 ⟨⟨1, [⟨1, 1, 3⟩], 0⟩, fun i => mkRingParty i 4 2 1, {0, 2}, 2⟩ 2

end MPA
